import Mathlib

/-!
Verification of the day-rotation and missed-day backfill logic of the
workout tracker server (src/server.ts).

Shallow embedding notes:
* Calendar dates are modelled as natural numbers (day indices).  The source
  stores dates as `YYYY-MM-DD` strings whose lexicographic order coincides
  with calendar order, and the backfill loop advances one calendar day at a
  time; on the `Nat` model date order is `<` and "next day" is `+ 1`.
  In the concrete scenarios below, a date like `2024-01-08` is mapped to its
  day-of-month index `8` (all scenario dates lie in January 2024, so the
  correspondence preserves order and successor).
* The `trained_days` SQLite table (keyed by `date`) is modelled as a list of
  records in insertion (rowid) order: `SELECT ... WHERE date = ?` is
  `List.find?`, `INSERT` is appending, `UPDATE ... WHERE date = ?` maps over
  the list, and `ORDER BY date DESC LIMIT 1` picks the record of maximal date.
* `planned_day` is an SQLite INTEGER manipulated as a JavaScript number; it is
  modelled as `Int`, and the JavaScript remainder operator `%` (truncated
  toward zero) as `Int.tmod`.
* `completed` and `rescheduled` are stored as 0/1 INTEGER flags and used as
  booleans; they are modelled as `Bool`.
-/

/-- One row of the `trained_days` table. -/
structure TrainingDayRecord where
  date : Nat
  planned_day : Int
  completed : Bool
  rescheduled : Bool
deriving DecidableEq, Repr

/-- The `trained_days` table, in rowid (insertion) order. -/
abbrev Store := List TrainingDayRecord

/-- Embedding of `SELECT * FROM trained_days WHERE date = ?` (`date` is the
primary key, so at most one row matches a well-formed store). -/
def getRecord (s : Store) (d : Nat) : Option TrainingDayRecord :=
  s.find? (fun r => r.date == d)

/-- Embedding of `ORDER BY date DESC LIMIT 1`: the record of maximal date
(head-biased on ties, which cannot occur when dates are unique). -/
def latestRecord : Store → Option TrainingDayRecord
  | [] => none
  | r :: rs =>
    match latestRecord rs with
    | none => some r
    | some m => if m.date ≤ r.date then some r else some m

/-- Embedding of `getNextWorkoutDay` (src/server.ts lines 83-87):
`SELECT planned_day FROM trained_days WHERE completed = 1 ORDER BY date DESC
LIMIT 1`; if no row, return 1, else `(planned_day % 5) + 1` with the
JavaScript truncated remainder. -/
def getNextWorkoutDay (s : Store) : Int :=
  match latestRecord (s.filter (fun r => r.completed)) with
  | none => 1
  | some r => (Int.tmod r.planned_day 5) + 1

/-- Embedding of the `while (currentDate < todayDate)` gap-filling loop of the
`/api/status` handler (src/server.ts lines 103-112): for each date from `cur`
up to (excluding) `today` that has no record, insert a record with
`completed = 0`, `rescheduled = 1` and `planned_day = getNextWorkoutDay()`
evaluated at insertion time. -/
def backfillLoop (s : Store) (cur today : Nat) : Store :=
  if cur < today then
    let s2 :=
      match getRecord s cur with
      | some _ => s
      | none => s ++ [⟨cur, getNextWorkoutDay s, false, true⟩]
    backfillLoop s2 (cur + 1) today
  else s
termination_by today - cur
decreasing_by omega

/-- Embedding of the backfill phase of `/api/status` (src/server.ts lines
94-113): fetch the latest entry; if it exists and its date is strictly before
`today`, run the gap-filling loop starting the day after it. -/
def backfill (s : Store) (today : Nat) : Store :=
  match latestRecord s with
  | none => s
  | some last => if last.date < today then backfillLoop s (last.date + 1) today else s

/-- Embedding of the `/api/status` handler's record resolution (src/server.ts
lines 94-121): backfill, then look up today's record; if absent, insert one
with `planned_day = getNextWorkoutDay()` and the column defaults
`completed = 0`, `rescheduled = 0`.  Returns the record served to the client
together with the updated store. -/
def resolveToday (s : Store) (today : Nat) : TrainingDayRecord × Store :=
  let s1 := backfill s today
  match getRecord s1 today with
  | some r => (r, s1)
  | none =>
    let pd := getNextWorkoutDay s1
    (⟨today, pd, false, false⟩, s1 ++ [⟨today, pd, false, false⟩])

/-- Embedding of the `/api/complete` handler (src/server.ts lines 129-133):
`UPDATE trained_days SET completed = 1 WHERE date = ?` sets the flag on every
row whose date is `today` (at most one in a well-formed store) and touches
nothing else. -/
def markTodayCompleted (s : Store) (today : Nat) : Store :=
  s.map (fun r => if r.date = today then { r with completed := true } else r)

/-- The spec invariant that every stored `plannedDay` lies in the cyclic range
1..5. -/
def storeInv (s : Store) : Prop :=
  ∀ r ∈ s, 1 ≤ r.planned_day ∧ r.planned_day ≤ 5

/-- The spec invariant that at most one record exists per calendar date. -/
def datesNodup (s : Store) : Prop :=
  (s.map (fun r => r.date)).Nodup

instance : DecidablePred storeInv := fun s =>
  List.decidableBAll _ s

instance : DecidablePred datesNodup := fun s =>
  List.nodupDecidable (s.map (fun r : TrainingDayRecord => r.date))

lemma backfillLoop_stop (s : Store) (cur today : Nat) (h : ¬ cur < today) :
    backfillLoop s cur today = s := by
  unfold backfillLoop
  simp [h]

lemma backfillLoop_step (s : Store) (cur today : Nat) (h : cur < today) :
    backfillLoop s cur today =
      backfillLoop
        (match getRecord s cur with
         | some _ => s
         | none => s ++ [⟨cur, getNextWorkoutDay s, false, true⟩])
        (cur + 1) today := by
  conv_lhs => unfold backfillLoop
  simp [h]

lemma latestRecord_mem {s : Store} {m : TrainingDayRecord}
    (h : latestRecord s = some m) : m ∈ s := by
  induction s with
  | nil => simp [latestRecord] at h
  | cons a t ih =>
    rw [latestRecord] at h
    rcases ht : latestRecord t with _ | m2
    · rw [ht] at h
      simp_all
    · rw [ht] at h
      by_cases hle : m2.date ≤ a.date
      · simp [hle] at h
        simp [h]
      · simp [hle] at h
        exact List.mem_cons_of_mem a (ih (h ▸ ht))

lemma latestRecord_eq_none_iff {s : Store} :
    latestRecord s = none ↔ s = [] := by
  cases s with
  | nil => simp [latestRecord]
  | cons a t =>
    simp only [latestRecord]
    rcases latestRecord t with _ | m2 <;> simp
    by_cases hle : m2.date ≤ a.date <;> simp [hle]

lemma latestRecord_le {s : Store} {m : TrainingDayRecord}
    (h : latestRecord s = some m) : ∀ r ∈ s, r.date ≤ m.date := by
  induction s generalizing m with
  | nil => simp
  | cons a t ih =>
    rw [latestRecord] at h
    intro r hr
    rcases ht : latestRecord t with _ | m2 <;> rw [ht] at h
    · rcases List.mem_cons.mp hr with h1 | h1
      · simp_all
      · rw [latestRecord_eq_none_iff.mp ht] at h1
        simp at h1
    · by_cases hle : m2.date ≤ a.date <;> simp [hle] at h <;> subst h
      · rcases List.mem_cons.mp hr with h1 | h1
        · subst h1
          exact le_refl _
        · exact le_trans (ih ht r h1) hle
      · rcases List.mem_cons.mp hr with h1 | h1
        · subst h1
          omega
        · exact ih ht r h1

lemma latestRecord_of_strictmax {s : Store} {r : TrainingDayRecord}
    (hmem : r ∈ s) (hmax : ∀ r' ∈ s, r' ≠ r → r'.date < r.date) :
    latestRecord s = some r := by
  induction s with
  | nil => simp at hmem
  | cons a t ih =>
    rcases List.mem_cons.mp hmem with h1 | h1
    · subst h1
      rw [latestRecord]
      rcases ht : latestRecord t with _ | m2
      · rfl
      · have hm2 : m2 ∈ t := latestRecord_mem ht
        by_cases hm2r : m2 = r
        · subst hm2r
          simp
        · have := hmax m2 (List.mem_cons_of_mem r hm2) hm2r
          have hle : m2.date ≤ r.date := le_of_lt this
          simp [hle]
    · have hat : latestRecord t = some r :=
        ih h1 (fun r' hr' => hmax r' (List.mem_cons_of_mem a hr'))
      rw [latestRecord, hat]
      by_cases har : a = r
      · subst har
        simp
      · have := hmax a (List.mem_cons_self a t) har
        have : ¬ r.date ≤ a.date := by omega
        simp [this]

lemma getRecord_eq_none_iff {s : Store} {d : Nat} :
    getRecord s d = none ↔ ∀ r ∈ s, r.date ≠ d := by
  simp [getRecord, List.find?_eq_none]

lemma getRecord_append_of_none {s t : Store} {d : Nat}
    (h : getRecord s d = none) : getRecord (s ++ t) d = getRecord t d := by
  simp only [getRecord] at *
  rw [List.find?_append, h]
  rfl

lemma getRecord_none_of_latest_lt {s : Store} {m : TrainingDayRecord} {d : Nat}
    (h : latestRecord s = some m) (hd : m.date < d) : getRecord s d = none := by
  rw [getRecord_eq_none_iff]
  intro r hr
  have := latestRecord_le h r hr
  omega

lemma getNextWorkoutDay_append_not_completed {s : Store} {r : TrainingDayRecord}
    (h : r.completed = false) :
    getNextWorkoutDay (s ++ [r]) = getNextWorkoutDay s := by
  simp [getNextWorkoutDay, List.filter_append, h]

lemma getNextWorkoutDay_range {s : Store} (hinv : storeInv s) :
    1 ≤ getNextWorkoutDay s ∧ getNextWorkoutDay s ≤ 5 := by
  rcases hl : latestRecord (s.filter (fun r => r.completed)) with _ | r
  · rw [getNextWorkoutDay, hl]
    exact ⟨le_refl 1, by norm_num⟩
  · rw [getNextWorkoutDay, hl]
    show 1 ≤ Int.tmod r.planned_day 5 + 1 ∧ Int.tmod r.planned_day 5 + 1 ≤ 5
    have hrs : r ∈ s := List.mem_of_mem_filter (latestRecord_mem hl)
    have hpd := hinv r hrs
    obtain ⟨h1, h5⟩ := hpd
    have hlo : 0 ≤ Int.tmod r.planned_day 5 := by
      have := Int.tmod_nonneg (5 : Int) (le_trans (by norm_num) h1)
      omega
    have hhi : Int.tmod r.planned_day 5 < 5 := by
      have := Int.tmod_lt_of_pos r.planned_day (show (0 : Int) < 5 by norm_num)
      omega
    omega

lemma storeInv_append_single {s : Store} {r : TrainingDayRecord}
    (hinv : storeInv s) (h1 : 1 ≤ r.planned_day) (h5 : r.planned_day ≤ 5) :
    storeInv (s ++ [r]) := by
  intro x hx
  rcases List.mem_append.mp hx with h | h
  · exact hinv x h
  · simp at h
    subst h
    exact ⟨h1, h5⟩

lemma datesNodup_append_single {s : Store} {r : TrainingDayRecord}
    (hnd : datesNodup s) (hfresh : getRecord s r.date = none) :
    datesNodup (s ++ [r]) := by
  simp only [datesNodup, List.map_append, List.map_cons, List.map_nil] at *
  rw [List.nodup_append]
  refine ⟨hnd, List.nodup_singleton _, ?_⟩
  intro d hd hd1
  simp at hd1
  subst hd1
  rcases List.mem_map.mp hd with ⟨x, hx, hxd⟩
  exact (getRecord_eq_none_iff.mp hfresh x hx) hxd

lemma backfillLoop_suffix (today : Nat) :
    ∀ (n : Nat) (s : Store) (cur : Nat), today - cur ≤ n →
      ∃ t, backfillLoop s cur today = s ++ t ∧
        ∀ r ∈ t, r.completed = false ∧ r.rescheduled = true ∧
          cur ≤ r.date ∧ r.date < today := by
  intro n
  induction n with
  | zero =>
    intro s cur h
    rw [backfillLoop_stop s cur today (by omega)]
    exact ⟨[], by simp⟩
  | succ n ih =>
    intro s cur h
    by_cases hc : cur < today
    · rw [backfillLoop_step s cur today hc]
      rcases hg : getRecord s cur with _ | r0
      · simp only [hg]
        obtain ⟨t, ht, hprop⟩ :=
          ih (s ++ [⟨cur, getNextWorkoutDay s, false, true⟩]) (cur + 1) (by omega)
        refine ⟨⟨cur, getNextWorkoutDay s, false, true⟩ :: t, by simpa using ht, ?_⟩
        intro r hr
        rcases List.mem_cons.mp hr with h1 | h1
        · subst h1
          exact ⟨rfl, rfl, le_refl _, hc⟩
        · obtain ⟨hc1, hr1, hc2, hc3⟩ := hprop r h1
          exact ⟨hc1, hr1, by omega, hc3⟩
      · simp only [hg]
        obtain ⟨t, ht, hprop⟩ := ih s (cur + 1) (by omega)
        refine ⟨t, ht, ?_⟩
        intro r hr
        obtain ⟨hc1, hr1, hc2, hc3⟩ := hprop r hr
        exact ⟨hc1, hr1, by omega, hc3⟩
    · rw [backfillLoop_stop s cur today hc]
      exact ⟨[], by simp⟩

lemma backfillLoop_storeInv (today : Nat) :
    ∀ (n : Nat) (s : Store) (cur : Nat), today - cur ≤ n → storeInv s →
      storeInv (backfillLoop s cur today) := by
  intro n
  induction n with
  | zero =>
    intro s cur h hinv
    rw [backfillLoop_stop s cur today (by omega)]
    exact hinv
  | succ n ih =>
    intro s cur h hinv
    by_cases hc : cur < today
    · rw [backfillLoop_step s cur today hc]
      rcases hg : getRecord s cur with _ | r0
      · simp only [hg]
        refine ih _ (cur + 1) (by omega) ?_
        obtain ⟨h1, h5⟩ := getNextWorkoutDay_range hinv
        exact storeInv_append_single hinv h1 h5
      · simp only [hg]
        exact ih s (cur + 1) (by omega) hinv
    · rw [backfillLoop_stop s cur today hc]
      exact hinv

lemma backfillLoop_datesNodup (today : Nat) :
    ∀ (n : Nat) (s : Store) (cur : Nat), today - cur ≤ n → datesNodup s →
      datesNodup (backfillLoop s cur today) := by
  intro n
  induction n with
  | zero =>
    intro s cur h hnd
    rw [backfillLoop_stop s cur today (by omega)]
    exact hnd
  | succ n ih =>
    intro s cur h hnd
    by_cases hc : cur < today
    · rw [backfillLoop_step s cur today hc]
      rcases hg : getRecord s cur with _ | r0
      · simp only [hg]
        exact ih _ (cur + 1) (by omega) (datesNodup_append_single hnd hg)
      · simp only [hg]
        exact ih s (cur + 1) (by omega) hnd
    · rw [backfillLoop_stop s cur today hc]
      exact hnd

lemma backfill_suffix (s : Store) (today : Nat) :
    ∃ t, backfill s today = s ++ t ∧
      ∀ r ∈ t, r.completed = false ∧ r.rescheduled = true ∧ r.date < today := by
  rw [backfill]
  rcases hl : latestRecord s with _ | last
  · exact ⟨[], by simp⟩
  · by_cases hlt : last.date < today
    · simp only [hlt, if_pos]
      obtain ⟨t, ht, hprop⟩ :=
        backfillLoop_suffix today (today - (last.date + 1)) s (last.date + 1) (le_refl _)
      exact ⟨t, ht, fun r hr => ⟨(hprop r hr).1, (hprop r hr).2.1, (hprop r hr).2.2.2⟩⟩
    · simp only [hlt, if_neg, not_false_iff]
      exact ⟨[], by simp⟩

lemma backfill_storeInv {s : Store} (today : Nat) (hinv : storeInv s) :
    storeInv (backfill s today) := by
  rw [backfill]
  rcases latestRecord s with _ | last
  · exact hinv
  · by_cases hlt : last.date < today
    · simp only [hlt, if_pos]
      exact backfillLoop_storeInv today (today - (last.date + 1)) s (last.date + 1)
        (le_refl _) hinv
    · simp only [hlt, if_neg, not_false_iff]
      exact hinv

lemma backfill_datesNodup {s : Store} (today : Nat) (hnd : datesNodup s) :
    datesNodup (backfill s today) := by
  rw [backfill]
  rcases latestRecord s with _ | last
  · exact hnd
  · by_cases hlt : last.date < today
    · simp only [hlt, if_pos]
      exact backfillLoop_datesNodup today (today - (last.date + 1)) s (last.date + 1)
        (le_refl _) hnd
    · simp only [hlt, if_neg, not_false_iff]
      exact hnd

lemma resolveToday_snd_suffix (s : Store) (today : Nat) :
    ∃ t, (resolveToday s today).2 = s ++ t := by
  obtain ⟨t, ht, _⟩ := backfill_suffix s today
  rw [resolveToday]
  rcases getRecord (backfill s today) today with _ | r
  · exact ⟨t ++ [⟨today, getNextWorkoutDay (backfill s today), false, false⟩],
      by simp [ht]⟩
  · exact ⟨t, ht⟩

lemma resolveToday_storeInv {s : Store} (today : Nat) (hinv : storeInv s) :
    storeInv (resolveToday s today).2 := by
  have h1 : storeInv (backfill s today) := backfill_storeInv today hinv
  rw [resolveToday]
  rcases getRecord (backfill s today) today with _ | r
  · obtain ⟨hlo, hhi⟩ := getNextWorkoutDay_range h1
    exact storeInv_append_single h1 hlo hhi
  · exact h1

lemma resolveToday_datesNodup {s : Store} (today : Nat) (hnd : datesNodup s) :
    datesNodup (resolveToday s today).2 := by
  have h1 : datesNodup (backfill s today) := backfill_datesNodup today hnd
  rw [resolveToday]
  rcases hg : getRecord (backfill s today) today with _ | r
  · exact datesNodup_append_single h1 hg
  · exact h1

lemma resolveToday_fst_date (s : Store) (today : Nat) :
    (resolveToday s today).1.date = today := by
  rw [resolveToday]
  rcases hg : getRecord (backfill s today) today with _ | r
  · rfl
  · have := List.find?_some hg
    simpa using this

lemma getRecord_resolveToday (s : Store) (today : Nat) :
    getRecord (resolveToday s today).2 today = some (resolveToday s today).1 := by
  rw [resolveToday]
  rcases hg : getRecord (backfill s today) today with _ | r
  · simp only
    rw [getRecord_append_of_none hg]
    simp [getRecord, List.find?]
  · exact hg

lemma resolveToday_fst_mem (s : Store) (today : Nat) :
    (resolveToday s today).1 ∈ (resolveToday s today).2 :=
  List.mem_of_find?_eq_some (getRecord_resolveToday s today)

lemma backfill_eq_self_of_mem_ge {s : Store} {r : TrainingDayRecord} {today : Nat}
    (hmem : r ∈ s) (hge : today ≤ r.date) : backfill s today = s := by
  rw [backfill]
  rcases hl : latestRecord s with _ | last
  · rfl
  · have := latestRecord_le hl r hmem
    have hnlt : ¬ last.date < today := by omega
    simp [hnlt]

lemma getRecord_cons_ne {r : TrainingDayRecord} {t : Store} {d : Nat}
    (h : r.date ≠ d) : getRecord (r :: t) d = getRecord t d := by
  have hb : (r.date == d) = false := beq_eq_false_iff_ne.mpr h
  simp [getRecord, List.find?, hb]

lemma resolveToday_gap3 {s : Store} {last : TrainingDayRecord} {today : Nat}
    (hl : latestRecord s = some last) (ht : today = last.date + 3) :
    resolveToday s today =
      (⟨today, getNextWorkoutDay s, false, false⟩,
       s ++ [⟨last.date + 1, getNextWorkoutDay s, false, true⟩,
             ⟨last.date + 2, getNextWorkoutDay s, false, true⟩,
             ⟨today, getNextWorkoutDay s, false, false⟩]) := by
  subst ht
  have hg1 : getRecord s (last.date + 1) = none :=
    getRecord_none_of_latest_lt hl (by omega)
  have hg2 : getRecord s (last.date + 2) = none :=
    getRecord_none_of_latest_lt hl (by omega)
  have hg3 : getRecord s (last.date + 3) = none :=
    getRecord_none_of_latest_lt hl (by omega)
  have hb : backfill s (last.date + 3) =
      s ++ [⟨last.date + 1, getNextWorkoutDay s, false, true⟩,
            ⟨last.date + 2, getNextWorkoutDay s, false, true⟩] := by
    rw [backfill, hl]
    have hlt : last.date < last.date + 3 := by omega
    simp only [hlt, if_pos]
    rw [backfillLoop_step _ _ _ (by omega), hg1]
    simp only
    rw [backfillLoop_step _ _ _ (by omega)]
    have hg2a : getRecord
        (s ++ [⟨last.date + 1, getNextWorkoutDay s, false, true⟩])
        (last.date + 2) = none := by
      rw [getRecord_append_of_none hg2]
      exact getRecord_cons_ne (by simp)
    rw [hg2a]
    simp only
    rw [getNextWorkoutDay_append_not_completed rfl]
    rw [backfillLoop_stop _ _ _ (by omega)]
    simp
  rw [resolveToday, hb]
  have hg3a : getRecord
      (s ++ [⟨last.date + 1, getNextWorkoutDay s, false, true⟩,
             ⟨last.date + 2, getNextWorkoutDay s, false, true⟩])
      (last.date + 3) = none := by
    rw [getRecord_append_of_none hg3]
    rw [getRecord_cons_ne (by simp)]
    rw [getRecord_cons_ne (by simp)]
    rfl
  rw [hg3a]
  simp only
  have hn : getNextWorkoutDay
      (s ++ [⟨last.date + 1, getNextWorkoutDay s, false, true⟩,
             ⟨last.date + 2, getNextWorkoutDay s, false, true⟩]) =
      getNextWorkoutDay s := by
    have e1 : s ++ [⟨last.date + 1, getNextWorkoutDay s, false, true⟩,
                    ⟨last.date + 2, getNextWorkoutDay s, false, true⟩] =
        (s ++ [⟨last.date + 1, getNextWorkoutDay s, false, true⟩]) ++
          [⟨last.date + 2, getNextWorkoutDay s, false, true⟩] := by
      simp
    rw [e1, getNextWorkoutDay_append_not_completed rfl,
      getNextWorkoutDay_append_not_completed rfl]
  rw [hn]
  simp

lemma tmod_five_eq_self {a : Int} (h0 : 0 ≤ a) (h : a < 5) : Int.tmod a 5 = a := by
  rcases a with n | n
  · rw [show ((5 : Int) = Int.ofNat 5) from rfl, Int.tmod]
    simp only [Int.ofNat_eq_coe] at h ⊢
    omega
  · exact absurd h0 (by simp)

lemma getNextWorkoutDay_eq_of_last_completed {s : Store} {r : TrainingDayRecord}
    (hr : r ∈ s) (hc : r.completed = true)
    (hmax : ∀ r' ∈ s, r'.completed = true → r' ≠ r → r'.date < r.date) :
    getNextWorkoutDay s = Int.tmod r.planned_day 5 + 1 := by
  have hmemf : r ∈ s.filter (fun x => x.completed) :=
    List.mem_filter.mpr ⟨hr, by simp [hc]⟩
  have hmaxf : ∀ r' ∈ s.filter (fun x => x.completed), r' ≠ r → r'.date < r.date := by
    intro r' hr' hne
    rcases List.mem_filter.mp hr' with ⟨hmem, hcomp⟩
    exact hmax r' hmem (by simpa using hcomp) hne
  rw [getNextWorkoutDay, latestRecord_of_strictmax hmemf hmaxf]

/-- C1: for every store, `getNextWorkoutDay` returns 1 when no record has
`completed = true`; otherwise it returns `(d % 5) + 1` (JavaScript truncated
remainder) where `d` is the `planned_day` of the completed record whose date
is maximal. -/
theorem C1_getNextWorkoutDay_contract (s : Store) :
    ((∀ r ∈ s, r.completed = false) → getNextWorkoutDay s = 1) ∧
    (∀ r ∈ s, r.completed = true →
      (∀ r' ∈ s, r'.completed = true → r' ≠ r → r'.date < r.date) →
      getNextWorkoutDay s = Int.tmod r.planned_day 5 + 1) := by
  constructor
  · intro hall
    have hfil : s.filter (fun x => x.completed) = [] := by
      rw [List.filter_eq_nil_iff]
      intro a ha
      simp [hall a ha]
    rw [getNextWorkoutDay, hfil]
    rfl
  · intro r hr hc hmax
    exact getNextWorkoutDay_eq_of_last_completed hr hc hmax

/-- Witness for C1 at two concrete stores: an all-incomplete store yields 1,
and a store whose last completed record has `planned_day = 2` yields 3. -/
theorem C1_getNextWorkoutDay_contract_witness :
    getNextWorkoutDay [⟨8, 2, false, true⟩] = 1 ∧
    getNextWorkoutDay [⟨8, 2, true, false⟩] = 3 := by
  constructor
  · exact (C1_getNextWorkoutDay_contract [⟨8, 2, false, true⟩]).1
      (by intro r hr; simp at hr; rw [hr])
  · have h := (C1_getNextWorkoutDay_contract [⟨8, 2, true, false⟩]).2
      ⟨8, 2, true, false⟩ (by simp) rfl
      (by intro r' h1 h2 h3; simp at h1; exact absurd h1 h3)
    rw [h]
    decide

/-- C2: when the latest record is dated exactly 3 days before `today`,
`resolveToday` inserts exactly the 2 strictly-between dates as backfill
records, each with `rescheduled = true`, `completed = false` and
`planned_day` equal to the rotation value computed from the last completed
record of the original store, then inserts today's record. -/
theorem C2_backfill_three_day_gap {s : Store} {last : TrainingDayRecord}
    {today : Nat} (hl : latestRecord s = some last) (ht : today = last.date + 3) :
    resolveToday s today =
      (⟨today, getNextWorkoutDay s, false, false⟩,
       s ++ [⟨last.date + 1, getNextWorkoutDay s, false, true⟩,
             ⟨last.date + 2, getNextWorkoutDay s, false, true⟩,
             ⟨today, getNextWorkoutDay s, false, false⟩]) :=
  resolveToday_gap3 hl ht

/-- Witness for C2: a store whose only record is incomplete and dated day 5,
queried on day 8, backfills days 6 and 7 with rotation value 1. -/
theorem C2_backfill_three_day_gap_witness :
    resolveToday [⟨5, 4, false, true⟩] 8 =
      (⟨8, 1, false, false⟩,
       [⟨5, 4, false, true⟩, ⟨6, 1, false, true⟩, ⟨7, 1, false, true⟩,
        ⟨8, 1, false, false⟩]) := by
  rw [C2_backfill_three_day_gap
    (show latestRecord [⟨5, 4, false, true⟩] = some ⟨5, 4, false, true⟩ from rfl)
    (show 8 = 5 + 3 from rfl)]
  decide

/-- C3: `resolveToday` is idempotent: run a second time on the store produced
by the first run with the same `today`, it returns the same record and
performs no insert (the store is unchanged). -/
theorem C3_resolveToday_idempotent (s : Store) (today : Nat) :
    resolveToday (resolveToday s today).2 today = resolveToday s today := by
  have hdate : (resolveToday s today).1.date = today := resolveToday_fst_date s today
  have hmem : (resolveToday s today).1 ∈ (resolveToday s today).2 :=
    resolveToday_fst_mem s today
  have hb : backfill (resolveToday s today).2 today = (resolveToday s today).2 :=
    backfill_eq_self_of_mem_ge hmem (by omega)
  conv_lhs => rw [resolveToday, hb, getRecord_resolveToday s today]

/-- C4: the concrete scenario of the spec, with `2024-01-08` as day 8 and
`today = 2024-01-11` as day 11: the backfill inserts days 9 and 10 with
`planned_day = 3`, `completed = false`, `rescheduled = true`, then today's
record is inserted with `planned_day = 3` and both flags false; the rotation
value is 3 for all three inserts. -/
theorem C4_concrete_scenario :
    resolveToday [⟨8, 2, true, false⟩] 11 =
      (⟨11, 3, false, false⟩,
       [⟨8, 2, true, false⟩, ⟨9, 3, false, true⟩, ⟨10, 3, false, true⟩,
        ⟨11, 3, false, false⟩]) := by
  rw [resolveToday_gap3
    (show latestRecord [⟨8, 2, true, false⟩] = some ⟨8, 2, true, false⟩ from rfl)
    (show 11 = 8 + 3 from rfl)]
  decide

/-- C5: the plannedDay-in-1..5 predicate is an invariant: it holds of the
empty store, is preserved by `resolveToday` (backfill inserts and today's
insert) and by `markTodayCompleted`, and under it `getNextWorkoutDay` always
yields a value in 1..5. -/
theorem C5_plannedDay_invariant (s : Store) (today : Nat) :
    storeInv [] ∧
    (storeInv s → storeInv (resolveToday s today).2) ∧
    (storeInv s → storeInv (markTodayCompleted s today)) ∧
    (storeInv s → 1 ≤ getNextWorkoutDay s ∧ getNextWorkoutDay s ≤ 5) := by
  refine ⟨?_, resolveToday_storeInv today, ?_, getNextWorkoutDay_range⟩
  · intro r hr
    simp at hr
  · intro hinv x hx
    rcases List.mem_map.mp hx with ⟨y, hy, hyx⟩
    subst hyx
    by_cases hd : y.date = today <;> simp [hd] <;> exact hinv y hy

/-- Witness for C5 at a concrete store and date. -/
theorem C5_plannedDay_invariant_witness :
    storeInv (resolveToday [⟨8, 2, true, false⟩] 9).2 ∧
    storeInv (markTodayCompleted [⟨8, 2, true, false⟩] 8) := by
  constructor
  · exact (C5_plannedDay_invariant [⟨8, 2, true, false⟩] 9).2.1 (by decide)
  · exact (C5_plannedDay_invariant [⟨8, 2, true, false⟩] 8).2.2.1 (by decide)

/-- C6: on a non-empty store satisfying the 1..5 invariant,
`getNextWorkoutDay` returns a value in 1..5; if the last completed record has
`planned_day = 5` it returns 1 (wrap), and if it has `planned_day = k` with
k in 1..4 it returns k + 1. -/
theorem C6_nextPlannedDay_range_and_wrap (s : Store) (_hne : s ≠ [])
    (hinv : storeInv s) :
    (1 ≤ getNextWorkoutDay s ∧ getNextWorkoutDay s ≤ 5) ∧
    (∀ r ∈ s, r.completed = true →
      (∀ r' ∈ s, r'.completed = true → r' ≠ r → r'.date < r.date) →
      ((r.planned_day = 5 → getNextWorkoutDay s = 1) ∧
       (r.planned_day ≠ 5 → getNextWorkoutDay s = r.planned_day + 1))) := by
  refine ⟨getNextWorkoutDay_range hinv, ?_⟩
  intro r hr hc hmax
  have heq := getNextWorkoutDay_eq_of_last_completed hr hc hmax
  obtain ⟨h1, h5⟩ := hinv r hr
  constructor
  · intro hp5
    rw [heq, hp5]
    decide
  · intro hp5
    rw [heq, tmod_five_eq_self (by omega) (by omega)]

/-- Witness for C6: a single completed record with `planned_day = 5` wraps
to 1, and one with `planned_day = 2` advances to 3. -/
theorem C6_nextPlannedDay_range_and_wrap_witness :
    getNextWorkoutDay [⟨8, 5, true, false⟩] = 1 ∧
    getNextWorkoutDay [⟨8, 2, true, false⟩] = 3 := by
  constructor
  · exact ((C6_nextPlannedDay_range_and_wrap [⟨8, 5, true, false⟩] (by simp)
      (by decide)).2 ⟨8, 5, true, false⟩ (by simp) rfl
      (by intro r' h1 h2 h3; simp at h1; exact absurd h1 h3)).1 rfl
  · have h := ((C6_nextPlannedDay_range_and_wrap [⟨8, 2, true, false⟩] (by simp)
      (by decide)).2 ⟨8, 2, true, false⟩ (by simp) rfl
      (by intro r' h1 h2 h3; simp at h1; exact absurd h1 h3)).2 (by decide)
    rw [h]
    decide

/-- C7: `markTodayCompleted` keeps the store's length, sets `completed = true`
on the record whose date is `today` while leaving its other fields (and every
record of any other date) unchanged, and is a no-op when no record exists for
`today`. -/
theorem C7_markTodayCompleted_frame (s : Store) (today : Nat) :
    (getRecord s today = none → markTodayCompleted s today = s) ∧
    (markTodayCompleted s today).length = s.length ∧
    ∀ (i : Nat) (old : TrainingDayRecord), s[i]? = some old →
      (old.date = today →
        (markTodayCompleted s today)[i]? = some { old with completed := true }) ∧
      (old.date ≠ today →
        (markTodayCompleted s today)[i]? = some old) := by
  refine ⟨?_, by simp [markTodayCompleted], ?_⟩
  · intro hnone
    have hall := getRecord_eq_none_iff.mp hnone
    rw [markTodayCompleted]
    have hcongr : ∀ r ∈ s,
        (if r.date = today then { r with completed := true } else r) = id r := by
      intro r hr
      simp [hall r hr]
    rw [List.map_congr_left hcongr, List.map_id]
  · intro i old hold
    constructor
    · intro hd
      rw [markTodayCompleted, List.getElem?_map, hold]
      simp [hd]
    · intro hd
      rw [markTodayCompleted, List.getElem?_map, hold]
      simp [hd]

/-- Witness for C7: completing day 9 on a store holding only a day-8 record is
a no-op, and completing day 8 flips exactly the `completed` flag of that
record. -/
theorem C7_markTodayCompleted_frame_witness :
    markTodayCompleted [⟨8, 2, false, false⟩] 9 = [⟨8, 2, false, false⟩] ∧
    (markTodayCompleted [⟨8, 2, false, false⟩] 8)[0]? =
      some ⟨8, 2, true, false⟩ := by
  constructor
  · exact (C7_markTodayCompleted_frame [⟨8, 2, false, false⟩] 9).1 rfl
  · exact ((C7_markTodayCompleted_frame [⟨8, 2, false, false⟩] 8).2.2 0
      ⟨8, 2, false, false⟩ rfl).1 rfl

/-- C8: on an entirely empty store, `resolveToday` performs no backfill and
creates and returns the record for `today` with `planned_day = 1` and both
flags false. -/
theorem C8_empty_store (today : Nat) :
    resolveToday [] today = (⟨today, 1, false, false⟩, [⟨today, 1, false, false⟩]) := by
  simp [resolveToday, backfill, latestRecord, getRecord, getNextWorkoutDay]

/-- C9: store-shape preservation: `resolveToday` keeps dates duplicate-free
and keeps every pre-existing record (it only inserts), and
`markTodayCompleted` keeps the exact sequence of dates (it only updates in
place, deleting nothing). -/
theorem C9_store_shape_preservation (s : Store) (today : Nat) :
    (datesNodup s → datesNodup (resolveToday s today).2) ∧
    (∀ r ∈ s, r ∈ (resolveToday s today).2) ∧
    (datesNodup s → datesNodup (markTodayCompleted s today)) ∧
    (markTodayCompleted s today).map (fun r => r.date) = s.map (fun r => r.date) := by
  have hdates : (markTodayCompleted s today).map (fun r => r.date) =
      s.map (fun r => r.date) := by
    rw [markTodayCompleted, List.map_map]
    refine List.map_congr_left ?_
    intro r hr
    by_cases hd : r.date = today <;> simp [hd]
  refine ⟨resolveToday_datesNodup today, ?_, ?_, hdates⟩
  · intro r hr
    obtain ⟨t, ht⟩ := resolveToday_snd_suffix s today
    rw [ht]
    exact List.mem_append_left t hr
  · intro hnd
    rw [datesNodup, hdates]
    exact hnd

/-- Witness for C9 at a concrete store and date. -/
theorem C9_store_shape_preservation_witness :
    datesNodup (resolveToday [⟨8, 2, true, false⟩] 9).2 ∧
    (⟨8, 2, true, false⟩ : TrainingDayRecord) ∈ (resolveToday [⟨8, 2, true, false⟩] 9).2 ∧
    datesNodup (markTodayCompleted [⟨8, 2, true, false⟩] 8) := by
  refine ⟨?_, ?_, ?_⟩
  · exact (C9_store_shape_preservation [⟨8, 2, true, false⟩] 9).1 (by decide)
  · exact (C9_store_shape_preservation [⟨8, 2, true, false⟩] 9).2.1
      ⟨8, 2, true, false⟩ (by simp)
  · exact (C9_store_shape_preservation [⟨8, 2, true, false⟩] 8).2.2.1 (by decide)

/-- C10: when the latest record is dated strictly after `today` and no record
exists for `today`, `resolveToday` performs no backfill but still inserts
today's record with `planned_day = getNextWorkoutDay`, `completed = false`,
`rescheduled = false`. -/
theorem C10_future_latest_no_backfill {s : Store} {last : TrainingDayRecord}
    {today : Nat} (hl : latestRecord s = some last) (hgt : today < last.date)
    (hnone : getRecord s today = none) :
    resolveToday s today =
      (⟨today, getNextWorkoutDay s, false, false⟩,
       s ++ [⟨today, getNextWorkoutDay s, false, false⟩]) := by
  have hb : backfill s today = s := by
    rw [backfill, hl]
    simp [show ¬ last.date < today by omega]
  rw [resolveToday, hb, hnone]

/-- Witness for C10: a store whose only record is at day 5, queried at day 3,
gets only a day-3 record with rotation value 3. -/
theorem C10_future_latest_no_backfill_witness :
    resolveToday [⟨5, 2, true, false⟩] 3 =
      (⟨3, 3, false, false⟩, [⟨5, 2, true, false⟩, ⟨3, 3, false, false⟩]) := by
  rw [C10_future_latest_no_backfill
    (show latestRecord [⟨5, 2, true, false⟩] = some ⟨5, 2, true, false⟩ from rfl)
    (show 3 < 5 by decide)
    (show getRecord [⟨5, 2, true, false⟩] 3 = none from rfl)]
  decide
